import Mathlib

/-!
Verification development for the TRAILS database-native model-selection
repository.  The Python sources under study are shallowly embedded below:

* `internal/ml/model_selection/pg_interface.py` — the request boundary
  (`exception_catcher`, `coordinator`, `refinement_phase`);
* `internal/ml/model_selection/exps/micro/benchmark_filtering_latency_sql.py`
  — the filtering scoring loop;
* `internal/ml/model_selection/exps/micro/benchmark_budget_aware_alg.py`
  — the budget-aware benchmark harness;
* `internal/ml/model_selection/src/search_space/mlp_api/space.py`
  — MLP architecture encodings and mutation.

Python strings are modelled as lists of code points (`List Nat`); Python
objects whose aliasing matters (the mutable hidden-layer lists of
architecture configurations) are modelled with an explicit store, a
`List (List Nat)` indexed by references, so that `deepcopy` and in-place
list mutation are represented faithfully.  Fallible Python code (raised
exceptions) is modelled with `Except`/`Option`.  Library calls whose
internals are outside the repository (`json.loads`, `configparser`,
`float`, the evaluators, `rms.coordination`) are abstract function
parameters of the embeddings that use them.
-/

/-- A code-point string, the model of a Python `str`. -/
abbrev PyStr := List Nat

/-- JSON-serializable Python values, the shape of every response record
produced at the request boundary (`orjson.dumps` arguments).  Record keys
are Lean string literals since the code never computes on them. -/
inductive PyVal where
  | pnull : PyVal
  | pbool : Bool → PyVal
  | pint : Int → PyVal
  | pfloat : Rat → PyVal
  | pstr : PyStr → PyVal
  | plist : List PyVal → PyVal
  | pobj : List (String × PyVal) → PyVal

/-- Keys of a response record (empty for non-objects). -/
def objKeys : PyVal → List String
  | .pobj fields => fields.map Prod.fst
  | _ => []

/-- Whether a response record contains the given key. -/
def hasKeyB (v : PyVal) (k : String) : Bool :=
  (objKeys v).any (fun s => s == k)

/-- Conversion of a Lean string literal to a code-point string. -/
def strCodes (s : String) : PyStr := s.data.map Char.toNat

/-- The parsed request parameters: the JSON object `json.loads` yields. -/
abbrev Params := List (String × PyVal)

/-- Process environment variables (`os.environ`), an insertion-ordered map. -/
abbrev Env := List (String × String)

/-- Model of `os.environ.setdefault(k, v)`: insert only when absent. -/
def envSetdefault (env : Env) (k v : String) : Env :=
  if (env.lookup k).isSome then env else env ++ [(k, v)]

/-- The configuration fields of `parse_config_arguments` that the request
wrapper itself reads (`args.base_dir`, `args.log_folder`, `args.log_name`);
the remaining fields are only passed through to the wrapped body. -/
structure ConfigArgs where
  base_dir : String
  log_folder : String
  log_name : String

/-- The structured error record `orjson.dumps({"Errored": traceback})`
returned by `exception_catcher` when anything inside the wrapper raises. -/
def errRecord (msg : PyStr) : PyVal := .pobj [("Errored", .pstr msg)]

/-- Model of `params.get("config_file")` (`dict.get`: `none` when absent). -/
def pget (params : Params) (k : String) : Option PyVal := params.lookup k

/-- Embedding of `exception_catcher` from `pg_interface.py` (lines 93-115).
`jsonParse` models `json.loads` on the encoded request, `parseConfig`
models `parse_config_arguments` together with the filesystem read it
performs, `func` is the wrapped body, and `ts` the timestamp
`calendar.timegm(time.gmtime())`.  Every stage runs inside the `try`, so
any failure is converted into the `{"Errored": ...}` record; the
environment-variable mutations happen between config parsing and the body
call, exactly as in the source. -/
def exception_catcher
    (jsonParse : PyStr → Except PyStr Params)
    (parseConfig : Option PyVal → Except PyStr ConfigArgs)
    (func : Params → ConfigArgs → Except PyStr PyVal)
    (ts : Nat) (encoded : PyStr) (env : Env) : PyVal × Env :=
  match jsonParse encoded with
  | .error e => (errRecord e, env)
  | .ok params =>
    match parseConfig (pget params "config_file") with
    | .error e => (errRecord e, env)
    | .ok args =>
      let env1 := envSetdefault env "base_dir" args.base_dir
      let env2 := envSetdefault env1 "log_logger_folder_name" args.log_folder
      let env3 := envSetdefault env2 "log_file_name"
        (args.log_name ++ "_" ++ toString ts ++ ".log")
      match func params args with
      | .error e => (errRecord e, env3)
      | .ok v => (v, env3)

/-- Model of `params[k]`: a missing key raises `KeyError`. -/
def getItem (params : Params) (k : String) : Except PyStr PyVal :=
  match params.lookup k with
  | some v => .ok v
  | none => .error (strCodes ("KeyError: " ++ k))

/-- Embedding of the `refinement_phase` endpoint body from
`pg_interface.py` (lines 287-291): it reads `params["mini_batch"]` and
returns the record `{"k_models": "k_models"}`. -/
def refinement_phase_body (params : Params) : Except PyStr PyVal :=
  match getItem params "mini_batch" with
  | .error e => .error e
  | .ok _ => .ok (.pobj [("k_models", .pstr (strCodes "k_models"))])

/-- ASCII lowercasing of one code point, the per-character behaviour of
Python `str.lower` on ASCII input. -/
def lowerCode (c : Nat) : Nat := if 65 ≤ c ∧ c ≤ 90 then c + 32 else c

/-- Model of `str.lower()`. -/
def lowerStr (s : PyStr) : PyStr := s.map lowerCode

/-- The code points of the literal `"true"`. -/
def trueCodes : PyStr := [116, 114, 117, 101]

/-- Specification-side predicate: the string equals `"true"` up to letter
case, written out independently of `lowerStr`. -/
def eqTrueUpToCase (s : PyStr) : Prop :=
  ∃ c1 c2 c3 c4, s = [c1, c2, c3, c4] ∧
    (c1 = 116 ∨ c1 = 84) ∧ (c2 = 114 ∨ c2 = 82) ∧
    (c3 = 117 ∨ c3 = 85) ∧ (c4 = 101 ∨ c4 = 69)

/-- Embedding of the `coordinator` endpoint body from `pg_interface.py`
(lines 239-264).  `pyFloat` models the Python `float(...)` conversion and
`coordination` models `rms.coordination`, whose implementation lives
outside the analysed sources; the body parses the three numeric fields,
computes `only_phase1` by the test `params["only_phase1"].lower() ==
"true"` (a non-string raises `AttributeError`), and serializes the triple
`K, U, N` as the record `{"k": K, "u": U, "n": N}`. -/
def coordinator_body
    (pyFloat : PyVal → Except PyStr Rat)
    (coordination : Rat → Rat → Rat → Bool → Int × Int × Int)
    (params : Params) : Except PyStr PyVal :=
  match getItem params "budget" with
  | .error e => .error e
  | .ok bv =>
    match pyFloat bv with
    | .error e => .error e
    | .ok budget =>
      match getItem params "score_time_per_model" with
      | .error e => .error e
      | .ok sv =>
        match pyFloat sv with
        | .error e => .error e
        | .ok score_time_per_model =>
          match getItem params "train_time_per_epoch" with
          | .error e => .error e
          | .ok tv =>
            match pyFloat tv with
            | .error e => .error e
            | .ok train_time_per_epoch =>
              match getItem params "only_phase1" with
              | .error e => .error e
              | .ok ov =>
                match ov with
                | .pstr os =>
                  let only_phase1 := lowerStr os == trueCodes
                  let r := coordination budget score_time_per_model
                    train_time_per_epoch only_phase1
                  .ok (.pobj [("k", .pint r.1), ("u", .pint r.2.1),
                              ("n", .pint r.2.2)])
                | _ => .error (strCodes "AttributeError: lower")

/-- State of the scoring loop in
`benchmark_filtering_latency_sql.py` (lines 63-82): the score cache
`result` (a Python dict keyed by `arch_id`), the fresh-evaluation counter
`explored_n`, and — for the analysis — the ordered trace of evaluator
calls made during the run (the sampled pair each call was made on). -/
structure FilterState (μ σ : Type) where
  result : List (Nat × σ)
  explored : Nat
  trace : List (Nat × μ)

/-- Model of Python dict assignment `d[k] = v`: replace in place when the
key exists, append otherwise (insertion order preserved). -/
def dictInsert {σ : Type} (d : List (Nat × σ)) (k : Nat) (v : σ) :
    List (Nat × σ) :=
  if (d.lookup k).isSome then
    d.map (fun p => if p.1 = k then (k, v) else p)
  else d ++ [(k, v)]

/-- Embedding of the `while True` scoring loop of
`benchmark_filtering_latency_sql.py` (lines 63-79).  The sampler is
modelled by the list of pairs it yields before returning its `None`
sentinel; `evalFn` models `_evaluator.p1_evaluate` applied to the request
built from the sampled id and micro-architecture (each id is evaluated at
most once per run, so modelling the call result as a function of the
sampled pair loses no generality); `limit` is `args.models_explore`.  The
branch order — exhaustion check, cache check, budget check, then
score/count/insert — follows the source exactly. -/
def scoringLoop {μ σ : Type} (evalFn : Nat → μ → σ) (limit : Nat) :
    List (Nat × μ) → FilterState μ σ → FilterState μ σ
  | [], st => st
  | (id, m) :: rest, st =>
    if (st.result.lookup id).isSome then scoringLoop evalFn limit rest st
    else if st.explored > limit then st
    else
      scoringLoop evalFn limit rest
        { result := dictInsert st.result id (evalFn id m)
          explored := st.explored + 1
          trace := st.trace ++ [(id, m)] }

/-- One full run of the scoring loop, starting from the cache read back
from `output_file` (`result = read_json(output_file)`), a zero counter and
an empty call trace. -/
def runScoring {μ σ : Type} (evalFn : Nat → μ → σ) (limit : Nat)
    (samples : List (Nat × μ)) (cache0 : List (Nat × σ)) : FilterState μ σ :=
  scoringLoop evalFn limit samples ⟨cache0, 0, []⟩

/-- Embedding of the inner `while True` retry loop shared by
`MlpSpace.mutate_architecture` and
`MlpSpace.mutate_architecture_move_proposal`
(`mlp_api/space.py`, lines 562-568 and 580-587).  The store maps object
references to hidden-layer lists; `childRef` is the reference of
`child_layer_list` and `idx` the chosen layer index.  Each iteration
draws `random.choice(self.model_cfg.layer_choices)` — modelled by one
entry of the randomness `tape`, taken modulo the number of choices — and,
when the drawn size differs from the current one, mutates the child list
in place and stops.  `random.choice` on an empty choice list raises, and
an exhausted tape models the loop never finding a differing size; both
are `none`. -/
def mutate_loop (choices : List Nat) :
    List Nat → List (List Nat) → Nat → Nat → Option (List (List Nat))
  | [], _, _, _ => none
  | t :: rest, store, childRef, idx =>
    if choices.length = 0 then none
    else
      let child := store.getD childRef []
      let cur := child.getD idx 0
      let v := choices.getD (t % choices.length) 0
      if v ≠ cur then some (store.set childRef (child.set idx v))
      else mutate_loop choices rest store childRef idx

/-- Embedding of `MlpSpace.mutate_architecture` (`mlp_api/space.py`,
lines 553-568).  `child_layer_list = deepcopy(parent.hidden_layer_list)`
allocates a fresh list object at reference `store.length`;
`random.choice(range(len(...)))` is modelled by `idxPick` modulo the
length (it raises on an empty list); the retry loop then mutates the
child in place.  The result is the updated store and the reference of the
returned configuration, which aliases the child list. -/
def mutate_architecture (choices : List Nat) (store : List (List Nat))
    (parentRef : Nat) (idxPick : Nat) (tape : List Nat) :
    Option (List (List Nat) × Nat) :=
  let parent := store.getD parentRef []
  let childRef := store.length
  let store1 := store ++ [parent]
  if parent.length = 0 then none
  else
    match mutate_loop choices tape store1 childRef (idxPick % parent.length) with
    | none => none
    | some store2 => some (store2, childRef)

/-- Embedding of the `for chosen_hidden_layer_index in ...` loop of
`MlpSpace.mutate_architecture_move_proposal` (`mlp_api/space.py`, lines
575-589): for each layer index in order, run the inner retry loop on the
same child list (each successful mutation persists into the next index)
and record the contents of the child list at the moment the proposal is
added to `all_combs`.  One randomness tape is consumed per index. -/
def move_loop (choices : List Nat) :
    List Nat → List (List Nat) → List (List Nat) → Nat → List (List Nat) →
    Option (List (List Nat) × List (List Nat))
  | [], _, store, _, acc => some (store, acc)
  | _ :: _, [], _, _, _ => none
  | idx :: idxs, tape :: tapes, store, childRef, acc =>
    match mutate_loop choices tape store childRef idx with
    | none => none
    | some store2 =>
      move_loop choices idxs tapes store2 childRef
        (acc ++ [store2.getD childRef []])

/-- Embedding of `MlpSpace.mutate_architecture_move_proposal`
(`mlp_api/space.py`, lines 570-589): deepcopy the parent list into a
fresh object, then sweep every layer index with the retry loop.  The
returned list holds the successive snapshots added to `all_combs`
(the set-deduplication of `all_combs` is irrelevant to the properties
proved here and is not modelled). -/
def mutate_architecture_move_proposal (choices : List Nat)
    (store : List (List Nat)) (parentRef : Nat) (tapes : List (List Nat)) :
    Option (List (List Nat) × List (List Nat)) :=
  let parent := store.getD parentRef []
  let childRef := store.length
  let store1 := store ++ [parent]
  move_loop choices (List.range parent.length) tapes store1 childRef []

/-- Decimal digits of a natural number, most significant first, as code
points — fuel-carrying auxiliary (the fuel `n` itself always suffices). -/
def natToDigitsF : Nat → Nat → List Nat
  | 0, n => [n % 10 + 48]
  | fuel + 1, n =>
    if n < 10 then [n + 48]
    else natToDigitsF fuel (n / 10) ++ [n % 10 + 48]

/-- Model of Python `str(x)` on a nonnegative integer: canonical decimal
code points, most significant first. -/
def natToDigits (n : Nat) : List Nat := natToDigitsF n n

/-- Whether a code point is a decimal digit. -/
def isDigitCode (c : Nat) : Bool := decide (48 ≤ c) && decide (c ≤ 57)

/-- Numeric value of a digit string (most significant first). -/
def digitsVal (s : List Nat) : Nat := s.foldl (fun acc c => acc * 10 + (c - 48)) 0

/-- Model of Python `int(s)` on the strings arising from model encodings:
a nonempty all-digit string parses to its value, anything else (in
particular the empty string `int("")`) raises `ValueError`, i.e. `none`.
(Python `int` additionally strips whitespace and an optional sign; no
encoding handled by this code contains either.) -/
def pyIntDigits (s : List Nat) : Option Nat :=
  if s ≠ [] ∧ s.all isDigitCode then some (digitsVal s) else none

/-- Model of Python `s.split("-")` (code point 45 is the dash): always at
least one part, empty parts between consecutive dashes and at the ends. -/
def splitDash : PyStr → List PyStr
  | [] => [[]]
  | c :: rest =>
    if c = 45 then [] :: splitDash rest
    else
      match splitDash rest with
      | [] => [[c]]
      | p :: ps => (c :: p) :: ps

/-- Model of Python `"-".join(parts)`. -/
def joinDash : List PyStr → PyStr
  | [] => []
  | [p] => p
  | p :: q :: ps => p ++ 45 :: joinDash (q :: ps)

/-- Parse every part of a split encoding with `int`, failing if any part
fails — the list comprehension `[int(ele) for ele in encoding.split("-")]`
of `MlpMicroCfg.builder`. -/
def parseParts : List PyStr → Option (List Nat)
  | [] => some []
  | p :: ps =>
    match pyIntDigits p, parseParts ps with
    | some n, some ns => some (n :: ns)
    | _, _ => none

/-- Embedding of `MlpSpace.serialize_model_encoding` (`mlp_api/space.py`,
lines 238-241 with `MlpMicroCfg.__str__`, lines 41-42): a configuration is
identified with its hidden-layer list, and serialization is the
dash-join of the decimal representations. -/
def serialize_model_encoding (hidden_layer_list : List Nat) : PyStr :=
  joinDash (hidden_layer_list.map natToDigits)

/-- Embedding of `MlpSpace.deserialize_model_encoding` (`mlp_api/space.py`,
lines 243-245 with `MlpMicroCfg.builder`, lines 33-35): split on dashes
and parse each part with `int`; a raised `ValueError` is `none`. -/
def deserialize_model_encoding (s : PyStr) : Option (List Nat) :=
  parseParts (splitDash s)

/-- A canonical decimal string: nonempty, all digits, and no leading zero
except for the single-digit string `"0"` itself. -/
def canonicalDigits (p : PyStr) : Bool :=
  (!p.isEmpty) && p.all isDigitCode && (decide (p.headD 0 ≠ 48) || p == [48])

/-- Model of Python `range(start, stop, step)` for a positive step:
`start + step * i` for `i` below the element count `⌈(stop-start)/step⌉`
(clamped at zero). -/
def pythonRange (start stop step : Int) : List Int :=
  (List.range (Int.ediv (stop - start + step - 1) step).toNat).map
    (fun (i : Nat) => start + step * (i : Int))

/-- Selection-sampling model of the library call
`random.sample(population, k)`: `k` times, pick an index among the
remaining population (the `pick` tape, taken modulo the remaining size)
and remove the chosen element.  `random.sample` instead raises when
`k` exceeds the population size; the theorems below therefore carry the
corresponding length hypothesis wherever it matters. -/
def pySample : List Int → Nat → (Nat → Nat) → List Int
  | _, 0, _ => []
  | pop, k + 1, pick =>
    if pop.length = 0 then []
    else
      let i := pick k % pop.length
      pop.getD i 0 :: pySample (pop.eraseIdx i) k pick

/-- The constant `total_run = 3` of `benchmark_budget_aware_alg.py`. -/
def total_run : Nat := 3

/-- The constant `total_models = 500` of `benchmark_budget_aware_alg.py`. -/
def total_models : Nat := 500

/-- Embedding of the candidate-pool sampling of
`benchmark_budget_aware_alg.py` (lines 82-86): one independent
`random.sample(list(range(1, 15624)), total_models)` per run, with the
randomness of run `r` modelled by the tape `pick r`. -/
def all_models (pick : Nat → Nat → Nat) : List (List Int) :=
  (List.range total_run).map
    (fun r => pySample (pythonRange 1 15624 1) total_models (pick r))

/-- The sweep step of `run_one_fixed_budget_alg`
(`benchmark_budget_aware_alg.py`, lines 16 and 19):
`int((fully_train_each_model - min_time_for_fixed_k) / 30)`, a
float division truncated toward zero. -/
def sweepStep (min_time fully : Int) : Int := Int.tdiv (fully - min_time) 30

/-- Embedding of the budget sweep of `run_one_fixed_budget_alg`
(`benchmark_budget_aware_alg.py`, line 28): the values taken by
`time_budget_used` in
`range(min_time_for_fixed_k, fully_train_each_model, step)`. -/
def budget_sweep (min_time fully : Int) : List Int :=
  pythonRange min_time fully (sweepStep min_time fully)

theorem lookup_append {α β : Type} [BEq α] (l1 l2 : List (α × β)) (k : α) :
    (l1 ++ l2).lookup k = ((l1.lookup k).or (l2.lookup k)) := by
  induction l1 with
  | nil => simp [List.lookup]
  | cons p t ih =>
    cases hb : k == p.1 <;> simp [List.lookup, hb, ih]

theorem lookup_mem_fst {α β : Type} [BEq α] [LawfulBEq α]
    (l : List (α × β)) (k : α) (h : k ∈ l.map Prod.fst) :
    (l.lookup k).isSome := by
  induction l with
  | nil => simp at h
  | cons p t ih =>
    cases hb : k == p.1 with
    | true => simp [List.lookup, hb]
    | false =>
      have hk : k ≠ p.1 := by
        intro he
        rw [he] at hb
        simp at hb
      simp only [List.map_cons, List.mem_cons] at h
      rcases h with h | h
      · exact absurd h hk
      · simp only [List.lookup, hb]
        exact ih h

/-- Claim C1.  The `refine` endpoint body (`refinement_phase` in
`pg_interface.py`) does not return a record with keys `best_arch` and
`best_arch_performance` as specified: on a well-formed request (here one
carrying the keys `mini_batch`, `u` and `k_models`) it returns the stub
record `{"k_models": "k_models"}`, which contains neither key. -/
theorem refinement_endpoint_returns_stub :
    refinement_phase_body
      [("mini_batch", .pstr []), ("u", .pint 1),
       ("k_models", .plist [.pstr (strCodes "8-16")])] =
      .ok (.pobj [("k_models", .pstr (strCodes "k_models"))]) ∧
    hasKeyB (.pobj [("k_models", .pstr (strCodes "k_models"))]) "best_arch" = false ∧
    hasKeyB (.pobj [("k_models", .pstr (strCodes "k_models"))])
      "best_arch_performance" = false ∧
    objKeys (.pobj [("k_models", .pstr (strCodes "k_models"))]) = ["k_models"] := by
  refine ⟨rfl, ?_, ?_, rfl⟩ <;> decide

/-- Claim C2.  The request wrapper `exception_catcher` never propagates a
raised exception: if JSON decoding, config parsing, or the wrapped body
fails, the returned value is the structured record `{"Errored": message}`,
which is a JSON object carrying the error key `"Errored"` and a message. -/
theorem exception_catcher_wraps_failures
    (jsonParse : PyStr → Except PyStr Params)
    (parseConfig : Option PyVal → Except PyStr ConfigArgs)
    (func : Params → ConfigArgs → Except PyStr PyVal)
    (ts : Nat) (encoded : PyStr) (env : Env) :
    (∀ e, jsonParse encoded = .error e →
      (exception_catcher jsonParse parseConfig func ts encoded env).1 = errRecord e) ∧
    (∀ p e, jsonParse encoded = .ok p →
      parseConfig (pget p "config_file") = .error e →
      (exception_catcher jsonParse parseConfig func ts encoded env).1 = errRecord e) ∧
    (∀ p a e, jsonParse encoded = .ok p →
      parseConfig (pget p "config_file") = .ok a → func p a = .error e →
      (exception_catcher jsonParse parseConfig func ts encoded env).1 = errRecord e) ∧
    (∀ msg, hasKeyB (errRecord msg) "Errored" = true ∧
      objKeys (errRecord msg) = ["Errored"]) := by
  refine ⟨?_, ?_, ?_, ?_⟩
  · intro e h
    simp [exception_catcher, h]
  · intro p e h1 h2
    simp [exception_catcher, h1, h2]
  · intro p a e h1 h2 h3
    simp [exception_catcher, h1, h2, h3]
  · intro msg
    exact ⟨rfl, rfl⟩

/-- Concrete instance of C2: a failing JSON decode yields the error
record. -/
theorem exception_catcher_wraps_failures_witness :
    (exception_catcher (fun _ => .error (strCodes "boom"))
      (fun _ => .ok ⟨"b", "f", "n"⟩) (fun _ _ => .ok .pnull)
      0 [] []).1 = errRecord (strCodes "boom") :=
  (exception_catcher_wraps_failures (fun _ => .error (strCodes "boom"))
    (fun _ => .ok ⟨"b", "f", "n"⟩) (fun _ _ => .ok .pnull)
    0 [] []).1 (strCodes "boom") rfl

theorem lowerCode_eq_iff (c t : Nat) (h1 : 97 ≤ t) (h2 : t ≤ 122) :
    lowerCode c = t ↔ c = t ∨ c = t - 32 := by
  unfold lowerCode
  split <;> omega

theorem lowerStr_eq_trueCodes_iff (s : PyStr) :
    lowerStr s = trueCodes ↔ eqTrueUpToCase s := by
  constructor
  · intro h
    rcases s with _ | ⟨c1, _ | ⟨c2, _ | ⟨c3, _ | ⟨c4, _ | ⟨c5, s⟩⟩⟩⟩⟩ <;>
      simp [lowerStr, trueCodes] at h
    obtain ⟨h1, h2, h3, h4⟩ := h
    refine ⟨c1, c2, c3, c4, rfl, ?_, ?_, ?_, ?_⟩
    · have := (lowerCode_eq_iff c1 116 (by omega) (by omega)).mp h1
      omega
    · have := (lowerCode_eq_iff c2 114 (by omega) (by omega)).mp h2
      omega
    · have := (lowerCode_eq_iff c3 117 (by omega) (by omega)).mp h3
      omega
    · have := (lowerCode_eq_iff c4 101 (by omega) (by omega)).mp h4
      omega
  · rintro ⟨c1, c2, c3, c4, rfl, h1, h2, h3, h4⟩
    rcases h1 with rfl | rfl <;> rcases h2 with rfl | rfl <;>
      rcases h3 with rfl | rfl <;> rcases h4 with rfl | rfl <;> decide

/-- Claim C5.  On a well-formed coordinate request, the `coordinator`
endpoint body parses the three numeric fields with `float`, interprets
`only_phase1` as true exactly when the request string equals `"true"` up
to letter case, and returns a record whose keys are exactly the integer
triple `k`, `u`, `n` produced by the coordination routine. -/
theorem coordinator_parses_request
    (pyFloat : PyVal → Except PyStr Rat)
    (coordination : Rat → Rat → Rat → Bool → Int × Int × Int)
    (params : Params) (bv sv tv : PyVal) (os : PyStr) (rb rs rt : Rat)
    (hb : params.lookup "budget" = some bv)
    (hb2 : pyFloat bv = .ok rb)
    (hs : params.lookup "score_time_per_model" = some sv)
    (hs2 : pyFloat sv = .ok rs)
    (ht : params.lookup "train_time_per_epoch" = some tv)
    (ht2 : pyFloat tv = .ok rt)
    (ho : params.lookup "only_phase1" = some (.pstr os)) :
    (eqTrueUpToCase os →
      coordinator_body pyFloat coordination params =
        .ok (.pobj [("k", .pint (coordination rb rs rt true).1),
                    ("u", .pint (coordination rb rs rt true).2.1),
                    ("n", .pint (coordination rb rs rt true).2.2)])) ∧
    (¬ eqTrueUpToCase os →
      coordinator_body pyFloat coordination params =
        .ok (.pobj [("k", .pint (coordination rb rs rt false).1),
                    ("u", .pint (coordination rb rs rt false).2.1),
                    ("n", .pint (coordination rb rs rt false).2.2)])) ∧
    (∀ v, coordinator_body pyFloat coordination params = .ok v →
      objKeys v = ["k", "u", "n"]) := by
  have hbody : ∀ b : Bool, (lowerStr os == trueCodes) = b →
      coordinator_body pyFloat coordination params =
        .ok (.pobj [("k", .pint (coordination rb rs rt b).1),
                    ("u", .pint (coordination rb rs rt b).2.1),
                    ("n", .pint (coordination rb rs rt b).2.2)]) := by
    intro b hbeq
    simp [coordinator_body, getItem, hb, hb2, hs, hs2, ht, ht2, ho, hbeq]
  refine ⟨?_, ?_, ?_⟩
  · intro htrue
    exact hbody true (by simp [(lowerStr_eq_trueCodes_iff os).mpr htrue])
  · intro hfalse
    refine hbody false ?_
    rw [beq_eq_false_iff_ne]
    intro he
    exact hfalse ((lowerStr_eq_trueCodes_iff os).mp he)
  · intro v hv
    rcases hbeq : lowerStr os == trueCodes with _ | _ <;>
      rw [hbody _ hbeq] at hv <;> cases hv <;> rfl

/-- Concrete instance of C5: the request string `"TRUE"` sets the
`only_phase1` flag and the response record has exactly the keys `k`, `u`,
`n`. -/
theorem coordinator_parses_request_witness :
    coordinator_body (fun _ => .ok 0) (fun _ _ _ _ => (7, 8, 9))
      [("budget", .pstr (strCodes "10")),
       ("score_time_per_model", .pstr (strCodes "0.02")),
       ("train_time_per_epoch", .pstr (strCodes "5.0")),
       ("only_phase1", .pstr [84, 82, 85, 69])] =
      .ok (.pobj [("k", .pint 7), ("u", .pint 8), ("n", .pint 9)]) :=
  (coordinator_parses_request (fun _ => .ok 0) (fun _ _ _ _ => (7, 8, 9))
    [("budget", .pstr (strCodes "10")),
     ("score_time_per_model", .pstr (strCodes "0.02")),
     ("train_time_per_epoch", .pstr (strCodes "5.0")),
     ("only_phase1", .pstr [84, 82, 85, 69])]
    (.pstr (strCodes "10")) (.pstr (strCodes "0.02"))
    (.pstr (strCodes "5.0")) [84, 82, 85, 69] 0 0 0
    rfl rfl rfl rfl rfl rfl rfl).1
    ⟨84, 82, 85, 69, rfl, by omega, by omega, by omega, by omega⟩

theorem lookup_envSetdefault_ne (env : Env) (k v k' : String) (h : k' ≠ k) :
    (envSetdefault env k v).lookup k' = env.lookup k' := by
  unfold envSetdefault
  split
  · rfl
  · rw [lookup_append]
    have : ([(k, v)] : Env).lookup k' = none := by
      simp [List.lookup, beq_eq_false_iff_ne.mpr h]
    rw [this]
    cases env.lookup k' <;> rfl

theorem lookup_envSetdefault_some (env : Env) (k v k' w : String)
    (h : env.lookup k' = some w) :
    (envSetdefault env k v).lookup k' = some w := by
  unfold envSetdefault
  split
  · exact h
  · rw [lookup_append, h]
    rfl

/-- Counterexample to claim C6: an invocation of the request boundary on
an initially empty environment leaves the environment changed — the
wrapper sets `base_dir`, `log_logger_folder_name` and `log_file_name` —
so invocations are not free of process-global side effects. -/
theorem invocation_mutates_environment :
    (exception_catcher (fun _ => .ok []) (fun _ => .ok ⟨"b", "f", "n"⟩)
        (fun _ _ => .ok .pnull) 0 [] []).2 ≠ [] := by
  decide

/-- Claim C6, amended.  An invocation of the request boundary touches the
process environment only at the three keys `base_dir`,
`log_logger_folder_name` and `log_file_name`, and only via `setdefault`:
every other key is left unchanged and an already-present value is never
overwritten — so the first invocation to set these keys determines their
value for all later invocations. -/
theorem invocation_env_effect_bounded
    (jsonParse : PyStr → Except PyStr Params)
    (parseConfig : Option PyVal → Except PyStr ConfigArgs)
    (func : Params → ConfigArgs → Except PyStr PyVal)
    (ts : Nat) (encoded : PyStr) (env : Env) :
    (∀ k, k ≠ "base_dir" → k ≠ "log_logger_folder_name" →
      k ≠ "log_file_name" →
      ((exception_catcher jsonParse parseConfig func ts encoded env).2).lookup k =
        env.lookup k) ∧
    (∀ k w, env.lookup k = some w →
      ((exception_catcher jsonParse parseConfig func ts encoded env).2).lookup k =
        some w) := by
  rcases hj : jsonParse encoded with e | params
  · constructor
    · intro k _ _ _
      simp [exception_catcher, hj]
    · intro k w h
      simp [exception_catcher, hj, h]
  · rcases hc : parseConfig (pget params "config_file") with e | args
    · constructor
      · intro k _ _ _
        simp [exception_catcher, hj, hc]
      · intro k w h
        simp [exception_catcher, hj, hc, h]
    · have step : ∀ k, k ≠ "base_dir" → k ≠ "log_logger_folder_name" →
          k ≠ "log_file_name" →
          (envSetdefault (envSetdefault (envSetdefault env "base_dir"
              args.base_dir) "log_logger_folder_name" args.log_folder)
            "log_file_name"
            (args.log_name ++ "_" ++ toString ts ++ ".log")).lookup k =
            env.lookup k := by
        intro k h1 h2 h3
        rw [lookup_envSetdefault_ne _ _ _ _ h3,
          lookup_envSetdefault_ne _ _ _ _ h2,
          lookup_envSetdefault_ne _ _ _ _ h1]
      have keep : ∀ k w, env.lookup k = some w →
          (envSetdefault (envSetdefault (envSetdefault env "base_dir"
              args.base_dir) "log_logger_folder_name" args.log_folder)
            "log_file_name"
            (args.log_name ++ "_" ++ toString ts ++ ".log")).lookup k =
            some w := by
        intro k w h
        exact lookup_envSetdefault_some _ _ _ _ _
          (lookup_envSetdefault_some _ _ _ _ _
            (lookup_envSetdefault_some _ _ _ _ _ h))
      rcases hf : func params args with e | v <;>
        simp only [exception_catcher, hj, hc, hf] <;>
        exact ⟨step, keep⟩

/-- Concrete instance of the amended C6: a key other than the three
logging keys is untouched, and a pre-set `base_dir` survives an
invocation unchanged. -/
theorem invocation_env_effect_bounded_witness :
    ((exception_catcher (fun _ => .ok []) (fun _ => .ok ⟨"b", "f", "n"⟩)
        (fun _ _ => .ok .pnull) 0 [] [("base_dir", "old"), ("HOME", "h")]).2).lookup
      "HOME" = ([("base_dir", "old"), ("HOME", "h")] : Env).lookup "HOME" ∧
    ((exception_catcher (fun _ => .ok []) (fun _ => .ok ⟨"b", "f", "n"⟩)
        (fun _ _ => .ok .pnull) 0 [] [("base_dir", "old"), ("HOME", "h")]).2).lookup
      "base_dir" = some "old" :=
  ⟨(invocation_env_effect_bounded (fun _ => .ok []) (fun _ => .ok ⟨"b", "f", "n"⟩)
      (fun _ _ => .ok .pnull) 0 [] [("base_dir", "old"), ("HOME", "h")]).1
    "HOME" (by decide) (by decide) (by decide),
   (invocation_env_effect_bounded (fun _ => .ok []) (fun _ => .ok ⟨"b", "f", "n"⟩)
      (fun _ _ => .ok .pnull) 0 [] [("base_dir", "old"), ("HOME", "h")]).2
    "base_dir" "old" (by decide)⟩

theorem scoringLoop_inv {μ σ : Type} (evalFn : Nat → μ → σ) (limit : Nat)
    (cache0 : List (Nat × σ)) :
    ∀ (samples : List (Nat × μ)) (st : FilterState μ σ),
    st.result = cache0 ++ st.trace.map (fun p => (p.1, evalFn p.1 p.2)) →
    (st.trace.map Prod.fst).Nodup →
    (∀ id, (cache0.lookup id).isSome → id ∉ st.trace.map Prod.fst) →
    ((scoringLoop evalFn limit samples st).result =
      cache0 ++ (scoringLoop evalFn limit samples st).trace.map
        (fun p => (p.1, evalFn p.1 p.2)) ∧
    ((scoringLoop evalFn limit samples st).trace.map Prod.fst).Nodup ∧
    (∀ id, (cache0.lookup id).isSome →
      id ∉ (scoringLoop evalFn limit samples st).trace.map Prod.fst)) := by
  intro samples
  induction samples with
  | nil =>
    intro st h1 h2 h3
    exact ⟨h1, h2, h3⟩
  | cons pm rest ih =>
    intro st h1 h2 h3
    obtain ⟨id, m⟩ := pm
    by_cases hin : (st.result.lookup id).isSome = true
    · simpa [scoringLoop, hin] using ih st h1 h2 h3
    · by_cases hlim : st.explored > limit
      · simp only [scoringLoop, hin, if_false, if_pos hlim]
        exact ⟨h1, h2, h3⟩
      · have hnotin : id ∉ st.trace.map Prod.fst := by
          intro hmem
          apply hin
          rw [h1, lookup_append]
          have : ((st.trace.map (fun p => (p.1, evalFn p.1 p.2))).lookup id).isSome := by
            apply lookup_mem_fst
            simpa [List.map_map, Function.comp] using hmem
          cases hc : (cache0.lookup id) <;>
            simp_all [Option.or]
        have hres : dictInsert st.result id (evalFn id m) =
            st.result ++ [(id, evalFn id m)] := by
          simp [dictInsert, hin]
        simp only [scoringLoop, hin, if_false, if_neg hlim]
        apply ih
        · rw [hres, h1]
          simp [List.map_append, List.append_assoc]
        · rw [List.map_append]
          refine List.Nodup.append h2 (List.nodup_singleton id) ?_
          intro a ha hb
          rw [List.map_cons, List.map_nil, List.mem_singleton] at hb
          subst hb
          exact hnotin ha
        · intro id2 hid2
          have hid2old := h3 id2 hid2
          simp only [List.map_append, List.map_cons, List.map_nil]
          intro hmem
          rcases List.mem_append.mp hmem with hmem | hmem
          · exact hid2old hmem
          · have : id2 = id := by simpa using hmem
            subst this
            apply hin
            rw [h1, lookup_append]
            cases hc : (cache0.lookup id2) <;> simp_all [Option.or]

/-- Claim C3.  In one run of the filtering scoring loop every candidate
identifier is scored at most once: the trace of evaluator calls has
pairwise-distinct identifiers, identifiers already present in the initial
score cache are never re-evaluated, and the final cache is the initial
cache extended by exactly one entry per call, holding the score of that
first (only) evaluation. -/
theorem filtering_scores_each_candidate_once {μ σ : Type}
    (evalFn : Nat → μ → σ) (limit : Nat) (samples : List (Nat × μ))
    (cache0 : List (Nat × σ)) :
    ((runScoring evalFn limit samples cache0).trace.map Prod.fst).Nodup ∧
    (∀ id, (cache0.lookup id).isSome →
      id ∉ (runScoring evalFn limit samples cache0).trace.map Prod.fst) ∧
    (runScoring evalFn limit samples cache0).result =
      cache0 ++ (runScoring evalFn limit samples cache0).trace.map
        (fun p => (p.1, evalFn p.1 p.2)) := by
  have h := scoringLoop_inv evalFn limit cache0 samples
    ⟨cache0, 0, []⟩ (by simp) (by simp) (by simp)
  exact ⟨h.2.1, h.2.2, h.1⟩

/-- Counterexample to claim C4: with a requested budget of `N = 0` fresh
evaluations, an empty initial cache and three available candidates, the
loop still makes one fresh evaluator call, exceeding `N`. -/
theorem filtering_budget_counterexample :
    ¬ ((runScoring (fun _ _ => (0 : Int)) 0 [(0, ()), (1, ()), (2, ())]
        []).trace.length ≤ 0) := by
  decide

theorem scoringLoop_trace_bound {μ σ : Type} (evalFn : Nat → μ → σ)
    (limit : Nat) :
    ∀ (samples : List (Nat × μ)) (st : FilterState μ σ),
    st.explored = st.trace.length → st.trace.length ≤ limit + 1 →
    (scoringLoop evalFn limit samples st).trace.length ≤ limit + 1 := by
  intro samples
  induction samples with
  | nil =>
    intro st _ h2
    exact h2
  | cons pm rest ih =>
    intro st h1 h2
    obtain ⟨id, m⟩ := pm
    by_cases hin : (st.result.lookup id).isSome = true
    · simpa [scoringLoop, hin] using ih st h1 h2
    · by_cases hlim : st.explored > limit
      · simpa [scoringLoop, hin, hlim] using h2
      · simp only [scoringLoop, hin, if_false, if_neg hlim]
        apply ih
        · simp [h1]
        · simp only [List.length_append, List.length_cons, List.length_nil]
          omega

/-- Claim C4, amended.  The filtering exploration loop stops once the
sampler is exhausted or once the count of fresh evaluations exceeds the
requested budget `N` (`args.models_explore`); because the strict
comparison `explored_n > N` is checked before scoring, the number of fresh
evaluator calls in one run is bounded by `N + 1` — one more than the
claimed bound `N` — and this bound is tight. -/
theorem filtering_fresh_calls_bound {μ σ : Type} (evalFn : Nat → μ → σ)
    (limit : Nat) (samples : List (Nat × μ)) (cache0 : List (Nat × σ)) :
    (runScoring evalFn limit samples cache0).trace.length ≤ limit + 1 := by
  exact scoringLoop_trace_bound evalFn limit samples ⟨cache0, 0, []⟩ rfl
    (by simp)

theorem mutate_loop_frame (choices : List Nat) :
    ∀ (tape : List Nat) (store : List (List Nat)) (childRef idx : Nat)
    (store2 : List (List Nat)),
    mutate_loop choices tape store childRef idx = some store2 →
    ∀ j, j ≠ childRef → store2[j]? = store[j]? := by
  intro tape
  induction tape with
  | nil =>
    intro store childRef idx store2 h
    simp [mutate_loop] at h
  | cons t rest ih =>
    intro store childRef idx store2 h j hj
    by_cases hch : choices.length = 0
    · simp [mutate_loop, hch] at h
    · simp only [mutate_loop, if_neg hch] at h
      split at h
      · cases h
        exact List.getElem?_set_ne (Ne.symm hj)
      · exact ih store childRef idx store2 h j hj

theorem mutate_loop_result (choices : List Nat) :
    ∀ (tape : List Nat) (store : List (List Nat)) (childRef idx : Nat)
    (store2 : List (List Nat)),
    mutate_loop choices tape store childRef idx = some store2 →
    ∃ v, v ∈ choices ∧ v ≠ (store.getD childRef []).getD idx 0 ∧
      store2 = store.set childRef ((store.getD childRef []).set idx v) := by
  intro tape
  induction tape with
  | nil =>
    intro store childRef idx store2 h
    simp [mutate_loop] at h
  | cons t rest ih =>
    intro store childRef idx store2 h
    by_cases hch : choices.length = 0
    · simp [mutate_loop, hch] at h
    · simp only [mutate_loop, if_neg hch] at h
      split at h
      · cases h
        refine ⟨choices.getD (t % choices.length) 0, ?_, by assumption, rfl⟩
        have hlt : t % choices.length < choices.length :=
          Nat.mod_lt t (Nat.pos_of_ne_zero hch)
        rw [List.getD_eq_getElem choices 0 hlt]
        exact List.getElem_mem hlt
      · exact ih store childRef idx store2 h

theorem move_loop_frame (choices : List Nat) :
    ∀ (idxs : List Nat) (tapes : List (List Nat)) (store : List (List Nat))
    (childRef : Nat) (acc : List (List Nat)) (store2 : List (List Nat))
    (acc2 : List (List Nat)),
    move_loop choices idxs tapes store childRef acc = some (store2, acc2) →
    ∀ j, j ≠ childRef → store2[j]? = store[j]? := by
  intro idxs
  induction idxs with
  | nil =>
    intro tapes store childRef acc store2 acc2 h j hj
    cases tapes <;> simp [move_loop] at h <;> rw [h.1]
  | cons idx idxs ih =>
    intro tapes store childRef acc store2 acc2 h j hj
    cases tapes with
    | nil => simp [move_loop] at h
    | cons tape tapes =>
      simp only [move_loop] at h
      cases hm : mutate_loop choices tape store childRef idx with
      | none => rw [hm] at h; cases h
      | some store1 =>
        rw [hm] at h
        rw [ih tapes store1 childRef _ store2 acc2 h j hj]
        exact mutate_loop_frame choices tape store childRef idx store1 hm j hj

/-- Claim C7.  Architecture mutation never modifies the parent: both
`mutate_architecture` and `mutate_architecture_move_proposal` first
deep-copy the parent hidden-layer list into a fresh object and mutate
only the copy, so the store entry of the parent reference is unchanged
whenever either operation returns. -/
theorem mutation_preserves_parent_encoding
    (choices : List Nat) (store : List (List Nat)) (parentRef idxPick : Nat)
    (tape : List Nat) (tapes : List (List Nat))
    (h : parentRef < store.length) :
    (∀ store2 cRef,
      mutate_architecture choices store parentRef idxPick tape =
        some (store2, cRef) →
      store2[parentRef]? = store[parentRef]?) ∧
    (∀ store2 acc,
      mutate_architecture_move_proposal choices store parentRef tapes =
        some (store2, acc) →
      store2[parentRef]? = store[parentRef]?) := by
  have hne : parentRef ≠ store.length := Nat.ne_of_lt h
  have happ : (store ++ [store.getD parentRef []])[parentRef]? =
      store[parentRef]? := by
    rw [List.getElem?_append]
    simp [h]
  constructor
  · intro store2 cRef hm
    simp only [mutate_architecture] at hm
    split at hm
    · cases hm
    · cases hl : mutate_loop choices tape (store ++ [store.getD parentRef []])
        store.length (idxPick % (store.getD parentRef []).length) with
      | none => rw [hl] at hm; cases hm
      | some store1 =>
        rw [hl] at hm
        cases hm
        exact (mutate_loop_frame choices tape _ store.length _ _ hl
          parentRef hne).trans happ
  · intro store2 acc hm
    unfold mutate_architecture_move_proposal at hm
    rw [move_loop_frame choices (List.range (store.getD parentRef []).length)
      tapes (store ++ [store.getD parentRef []]) store.length [] store2 acc hm
      parentRef hne]
    exact happ

/-- Concrete instance of C7: mutating the one-layer architecture `[8]`
into `[16]` leaves the parent store slot untouched. -/
theorem mutation_preserves_parent_encoding_witness :
    (0 : Nat) < 1 ∧
    ([[8], [16]] : List (List Nat))[0]? = ([[8]] : List (List Nat))[0]? :=
  ⟨by decide,
   (mutation_preserves_parent_encoding [8, 16] [[8]] 0 0 [1] [[1]]
     (by decide)).1 [[8], [16]] 1 rfl⟩

/-- Claim C10.  Whenever `mutate_architecture` returns, the child
hidden-layer list has the same length as the parent, the chosen position
holds a size from the configured layer choices that differs from the
parent size there, and every other position equals the parent. -/
theorem mutate_changes_exactly_one_position
    (choices : List Nat) (store : List (List Nat)) (parentRef idxPick : Nat)
    (tape : List Nat) (store2 : List (List Nat)) (cRef : Nat)
    (h : mutate_architecture choices store parentRef idxPick tape =
      some (store2, cRef)) :
    (store2.getD cRef []).length = (store.getD parentRef []).length ∧
    (store2.getD cRef []).getD
        (idxPick % (store.getD parentRef []).length) 0 ∈ choices ∧
    (store2.getD cRef []).getD
        (idxPick % (store.getD parentRef []).length) 0 ≠
      (store.getD parentRef []).getD
        (idxPick % (store.getD parentRef []).length) 0 ∧
    (∀ j, j < (store.getD parentRef []).length →
      j ≠ idxPick % (store.getD parentRef []).length →
      (store2.getD cRef []).getD j 0 =
        (store.getD parentRef []).getD j 0) := by
  simp only [mutate_architecture] at h
  split at h
  · cases h
  · rename_i hlen
    cases hl : mutate_loop choices tape (store ++ [store.getD parentRef []])
        store.length (idxPick % (store.getD parentRef []).length) with
    | none => rw [hl] at h; cases h
    | some store1 =>
      rw [hl] at h
      cases h
      obtain ⟨v, hv, hvne, rfl⟩ := mutate_loop_result choices tape _ _ _ _ hl
      have hparent : (store ++ [store.getD parentRef []]).getD store.length [] =
          store.getD parentRef [] := by
        simp [List.getD_eq_getElem?_getD]
      have hchildlen : store.length <
          ((store ++ [store.getD parentRef []]).set store.length
            ((store ++ [store.getD parentRef []]).getD store.length [] |>.set
              (idxPick % (store.getD parentRef []).length) v)).length := by
        simp
      have hchild :
          (((store ++ [store.getD parentRef []]).set store.length
            (((store ++ [store.getD parentRef []]).getD store.length []).set
              (idxPick % (store.getD parentRef []).length) v)).getD
            store.length []) =
          ((store.getD parentRef []).set
            (idxPick % (store.getD parentRef []).length) v) := by
        rw [hparent]
        simp [List.getD_eq_getElem?_getD, List.getElem?_set_self]
      rw [hparent] at hvne
      have hidx : idxPick % (store.getD parentRef []).length <
          (store.getD parentRef []).length :=
        Nat.mod_lt idxPick (Nat.pos_of_ne_zero hlen)
      refine ⟨?_, ?_, ?_, ?_⟩
      · rw [hchild]
        simp
      · rw [hchild]
        rw [List.getD_eq_getElem?_getD]
        rw [List.getElem?_set_self (by simpa using hidx)]
        simpa using hv
      · rw [hchild]
        rw [List.getD_eq_getElem?_getD]
        rw [List.getElem?_set_self (by simpa using hidx)]
        simpa using hvne
      · intro j hj hjne
        rw [hchild]
        rw [List.getD_eq_getElem?_getD,
          List.getElem?_set_ne (Ne.symm hjne),
          ← List.getD_eq_getElem?_getD]

/-- Concrete instance of C10: mutating `[8]` with choices `[8, 16]` at
position 0 produces the child `[16]`, matching every conjunct of the
theorem. -/
theorem mutate_changes_exactly_one_position_witness :
    mutate_architecture [8, 16] [[8]] 0 0 [1] = some ([[8], [16]], 1) ∧
    (([[8], [16]] : List (List Nat)).getD 1 []).getD 0 0 ∈ [8, 16] :=
  ⟨rfl, (mutate_changes_exactly_one_position [8, 16] [[8]] 0 0 [1]
    [[8], [16]] 1 rfl).2.1⟩

theorem natToDigitsF_stable :
    ∀ (f g n : Nat), n ≤ f → n ≤ g → natToDigitsF f n = natToDigitsF g n := by
  intro f
  induction f with
  | zero =>
    intro g n hf _
    interval_cases n
    cases g with
    | zero => rfl
    | succ g => simp [natToDigitsF]
  | succ f ih =>
    intro g n hf hg
    cases g with
    | zero =>
      interval_cases n
      simp [natToDigitsF]
    | succ g =>
      by_cases hn : n < 10
      · simp [natToDigitsF, hn]
      · have hdiv : n / 10 < n := Nat.div_lt_self (by omega) (by omega)
        simp only [natToDigitsF, if_neg hn]
        rw [ih g (n / 10) (by omega) (by omega)]

theorem natToDigits_lt10 (n : Nat) (h : n < 10) : natToDigits n = [n + 48] := by
  unfold natToDigits
  cases n with
  | zero => simp [natToDigitsF]
  | succ m => simp [natToDigitsF, h]

theorem natToDigits_ge10 (n : Nat) (h : 10 ≤ n) :
    natToDigits n = natToDigits (n / 10) ++ [n % 10 + 48] := by
  unfold natToDigits
  cases n with
  | zero => omega
  | succ m =>
    have hdiv : (m + 1) / 10 < m + 1 := Nat.div_lt_self (by omega) (by omega)
    simp only [natToDigitsF, if_neg (by omega : ¬ m + 1 < 10)]
    rw [natToDigitsF_stable m ((m + 1) / 10) ((m + 1) / 10) (by omega)
      (Nat.le_refl _)]

theorem digitsVal_append (s : List Nat) (c : Nat) :
    digitsVal (s ++ [c]) = digitsVal s * 10 + (c - 48) := by
  simp [digitsVal, List.foldl_append]

theorem digitsVal_natToDigits (n : Nat) : digitsVal (natToDigits n) = n := by
  induction n using Nat.strong_induction_on with
  | _ n ih =>
    by_cases h : n < 10
    · rw [natToDigits_lt10 n h]
      simp [digitsVal]
    · have hdiv : n / 10 < n := Nat.div_lt_self (by omega) (by omega)
      rw [natToDigits_ge10 n (by omega), digitsVal_append, ih (n / 10) hdiv]
      omega

theorem natToDigits_mem_bounds (n : Nat) :
    ∀ c ∈ natToDigits n, 48 ≤ c ∧ c ≤ 57 := by
  induction n using Nat.strong_induction_on with
  | _ n ih =>
    by_cases h : n < 10
    · rw [natToDigits_lt10 n h]
      intro c hc
      simp at hc
      omega
    · have hdiv : n / 10 < n := Nat.div_lt_self (by omega) (by omega)
      rw [natToDigits_ge10 n (by omega)]
      intro c hc
      rcases List.mem_append.mp hc with hc | hc
      · exact ih (n / 10) hdiv c hc
      · simp at hc
        have := Nat.mod_lt n (y := 10) (by omega)
        omega

theorem natToDigits_ne_nil (n : Nat) : natToDigits n ≠ [] := by
  by_cases h : n < 10
  · rw [natToDigits_lt10 n h]
    simp
  · rw [natToDigits_ge10 n (by omega)]
    simp

theorem natToDigits_no_dash (n : Nat) : 45 ∉ natToDigits n := by
  intro hmem
  have := natToDigits_mem_bounds n 45 hmem
  omega

theorem natToDigits_all_digits (n : Nat) :
    (natToDigits n).all isDigitCode = true := by
  rw [List.all_eq_true]
  intro c hc
  have := natToDigits_mem_bounds n c hc
  simp [isDigitCode]
  omega

theorem pyIntDigits_natToDigits (n : Nat) :
    pyIntDigits (natToDigits n) = some n := by
  unfold pyIntDigits
  rw [if_pos ⟨natToDigits_ne_nil n, natToDigits_all_digits n⟩]
  rw [digitsVal_natToDigits]

theorem splitDash_ne_nil (s : PyStr) : splitDash s ≠ [] := by
  cases s with
  | nil => simp [splitDash]
  | cons c rest =>
    by_cases h : c = 45
    · simp [splitDash, h]
    · simp only [splitDash, if_neg h]
      cases splitDash rest <;> simp

theorem splitDash_no_dash (p : PyStr) (h : 45 ∉ p) : splitDash p = [p] := by
  induction p with
  | nil => rfl
  | cons c rest ih =>
    have hc : c ≠ 45 := by
      intro he
      exact h (he ▸ List.mem_cons_self c rest)
    have hrest : 45 ∉ rest := fun hm => h (List.mem_cons_of_mem c hm)
    simp only [splitDash, if_neg hc, ih hrest]

theorem splitDash_append_dash (p t : PyStr) (h : 45 ∉ p) :
    splitDash (p ++ 45 :: t) = p :: splitDash t := by
  induction p with
  | nil => simp [splitDash]
  | cons c rest ih =>
    have hc : c ≠ 45 := by
      intro he
      exact h (he ▸ List.mem_cons_self c rest)
    have hrest : 45 ∉ rest := fun hm => h (List.mem_cons_of_mem c hm)
    simp only [List.cons_append, splitDash, if_neg hc]
    rw [show rest.append (45 :: t) = rest ++ 45 :: t from rfl, ih hrest]

theorem splitDash_joinDash (parts : List PyStr) (hne : parts ≠ [])
    (h : ∀ p ∈ parts, 45 ∉ p) : splitDash (joinDash parts) = parts := by
  induction parts with
  | nil => exact absurd rfl hne
  | cons p ps ih =>
    cases ps with
    | nil =>
      simp only [joinDash]
      exact splitDash_no_dash p (h p (List.mem_cons_self p []))
    | cons q ps2 =>
      simp only [joinDash]
      rw [splitDash_append_dash p _ (h p (List.mem_cons_self p _))]
      rw [ih (by simp) (fun r hr => h r (List.mem_cons_of_mem p hr))]

theorem joinDash_splitDash (s : PyStr) : joinDash (splitDash s) = s := by
  induction s with
  | nil => rfl
  | cons c rest ih =>
    by_cases h : c = 45
    · subst h
      simp only [splitDash, if_pos rfl]
      cases hsp : splitDash rest with
      | nil => exact absurd hsp (splitDash_ne_nil rest)
      | cons p ps =>
        simp only [joinDash, List.nil_append]
        rw [← hsp, ih]
    · simp only [splitDash, if_neg h]
      cases hsp : splitDash rest with
      | nil => exact absurd hsp (splitDash_ne_nil rest)
      | cons p ps =>
        cases ps with
        | nil =>
          simp only [joinDash]
          rw [hsp] at ih
          simp only [joinDash] at ih
          rw [ih]
        | cons q ps2 =>
          simp only [joinDash, List.cons_append]
          rw [hsp] at ih
          simp only [joinDash] at ih
          rw [ih]

theorem parseParts_map_natToDigits (l : List Nat) :
    parseParts (l.map natToDigits) = some l := by
  induction l with
  | nil => rfl
  | cons a l ih =>
    simp only [List.map_cons, parseParts, pyIntDigits_natToDigits a, ih]

/-- Counterexample to claim C9: the encoding round trip fails on the
micro-configuration with an empty hidden-layer list — its serialization
is the empty string, which `deserialize_model_encoding` rejects
(`int("")` raises `ValueError`) instead of returning the configuration. -/
theorem empty_cfg_roundtrip_fails :
    serialize_model_encoding [] = [] ∧
    deserialize_model_encoding (serialize_model_encoding []) = none := by
  exact ⟨rfl, rfl⟩

theorem digitsVal_foldl (t : List Nat) :
    ∀ acc, t.foldl (fun a c => a * 10 + (c - 48)) acc =
      acc * 10 ^ t.length + digitsVal t := by
  induction t with
  | nil =>
    intro acc
    simp [digitsVal]
  | cons c t ih =>
    intro acc
    simp only [List.foldl_cons, List.length_cons]
    rw [ih (acc * 10 + (c - 48))]
    have hd : digitsVal (c :: t) = (c - 48) * 10 ^ t.length + digitsVal t := by
      simp only [digitsVal, List.foldl_cons]
      rw [show (0 : Nat) * 10 + (c - 48) = c - 48 by omega]
      have := ih (c - 48)
      simp only [digitsVal] at this ⊢
      exact this
    rw [hd]
    ring

theorem digitsVal_pos (q : PyStr) (hq : q ≠ [])
    (hdig : q.all isDigitCode = true) (hz : q.headD 0 ≠ 48) :
    1 ≤ digitsVal q := by
  cases q with
  | nil => exact absurd rfl hq
  | cons c t =>
    have hc : isDigitCode c = true := by
      rw [List.all_eq_true] at hdig
      exact hdig c (List.mem_cons_self c t)
    simp only [isDigitCode, Bool.and_eq_true, decide_eq_true_eq] at hc
    simp only [List.headD_cons] at hz
    have hd : digitsVal (c :: t) = (c - 48) * 10 ^ t.length + digitsVal t := by
      simp only [digitsVal, List.foldl_cons]
      rw [show (0 : Nat) * 10 + (c - 48) = c - 48 by omega]
      have := digitsVal_foldl t (c - 48)
      simp only [digitsVal] at this ⊢
      exact this
    rw [hd]
    have h1 : 1 ≤ c - 48 := by omega
    have h2 : 1 ≤ 10 ^ t.length := Nat.one_le_pow _ _ (by omega)
    have := Nat.mul_le_mul h1 h2
    omega

theorem natToDigits_digitsVal (p : PyStr) (h : canonicalDigits p = true) :
    natToDigits (digitsVal p) = p := by
  induction p using List.reverseRecOn with
  | nil => simp [canonicalDigits] at h
  | append_singleton q c ih =>
    simp only [canonicalDigits, Bool.and_eq_true, Bool.or_eq_true,
      decide_eq_true_eq, List.all_append, List.all_cons, List.all_nil,
      Bool.and_true] at h
    obtain ⟨⟨hne, hdigq, hdigc⟩, hlead⟩ := h
    simp only [isDigitCode, Bool.and_eq_true, decide_eq_true_eq] at hdigc
    cases q with
    | nil =>
      simp only [List.nil_append]
      have hval : digitsVal [c] = c - 48 := by
        simp [digitsVal]
      rw [hval, natToDigits_lt10 (c - 48) (by omega)]
      have : c - 48 + 48 = c := by omega
      rw [this]
    | cons c0 q0 =>
      have hq : (c0 :: q0) ≠ ([] : PyStr) := by simp
      have hnotsingle : (c0 :: q0) ++ [c] ≠ [48] := by
        intro he
        have := congrArg List.length he
        simp at this
      have hhead : ((c0 :: q0) ++ [c]).headD 0 = c0 := by simp
      have hlead2 : c0 ≠ 48 := by
        rcases hlead with hlead | hlead
        · rw [hhead] at hlead
          exact hlead
        · refine absurd ?_ hnotsingle
          simp at hlead
      have hcanq : canonicalDigits (c0 :: q0) = true := by
        simp only [canonicalDigits, Bool.and_eq_true, Bool.or_eq_true,
          decide_eq_true_eq]
        refine ⟨⟨by simp, ?_⟩, Or.inl (by simpa using hlead2)⟩
        rw [List.all_eq_true] at hdigq ⊢
        exact hdigq
      have hvq : 1 ≤ digitsVal (c0 :: q0) := by
        apply digitsVal_pos _ hq hdigq
        simpa using hlead2
      rw [digitsVal_append]
      have h10 : 10 ≤ digitsVal (c0 :: q0) * 10 + (c - 48) := by omega
      rw [natToDigits_ge10 _ h10]
      have hdivmod : (digitsVal (c0 :: q0) * 10 + (c - 48)) / 10 =
          digitsVal (c0 :: q0) ∧
          (digitsVal (c0 :: q0) * 10 + (c - 48)) % 10 = c - 48 := by
        constructor <;> omega
      rw [hdivmod.1, hdivmod.2, ih hcanq]
      have : c - 48 + 48 = c := by omega
      rw [this]

theorem parseParts_canonical (parts : List PyStr)
    (h : ∀ p ∈ parts, canonicalDigits p = true) :
    parseParts parts = some (parts.map digitsVal) := by
  induction parts with
  | nil => rfl
  | cons p ps ih =>
    have hp := h p (List.mem_cons_self p ps)
    simp only [canonicalDigits, Bool.and_eq_true, Bool.or_eq_true,
      decide_eq_true_eq] at hp
    have hparse : pyIntDigits p = some (digitsVal p) := by
      unfold pyIntDigits
      rw [if_pos ⟨by simpa using hp.1.1, hp.1.2⟩]
    simp only [parseParts, hparse,
      ih (fun r hr => h r (List.mem_cons_of_mem p hr)), List.map_cons]

/-- Claim C9, amended.  The encoding round trip holds away from the empty
configuration: for every nonempty hidden-layer list, deserializing its
serialization recovers the same list; and for every well-formed encoding
string — dash-joined canonical decimal numerals — serializing the
deserialized configuration returns the original string. -/
theorem encoding_roundtrip :
    (∀ l : List Nat, l ≠ [] →
      deserialize_model_encoding (serialize_model_encoding l) = some l) ∧
    (∀ s : PyStr, (∀ p ∈ splitDash s, canonicalDigits p = true) →
      ∃ l, deserialize_model_encoding s = some l ∧
        serialize_model_encoding l = s) := by
  constructor
  · intro l hl
    unfold deserialize_model_encoding serialize_model_encoding
    rw [splitDash_joinDash (l.map natToDigits)
      (by simpa using hl)
      (by
        intro p hp
        rw [List.mem_map] at hp
        obtain ⟨n, _, rfl⟩ := hp
        exact natToDigits_no_dash n)]
    exact parseParts_map_natToDigits l
  · intro s hcan
    refine ⟨(splitDash s).map digitsVal, ?_, ?_⟩
    · unfold deserialize_model_encoding
      exact parseParts_canonical (splitDash s) hcan
    · unfold serialize_model_encoding
      rw [List.map_map]
      have : (splitDash s).map (natToDigits ∘ digitsVal) = splitDash s := by
        apply List.map_congr_left ?_ |>.trans (List.map_id _)
        intro p hp
        exact natToDigits_digitsVal p (hcan p hp)
      rw [this, joinDash_splitDash]

/-- Concrete instance of the amended C9: the list `[8, 16]` and the
string `"8-16"` both round-trip. -/
theorem encoding_roundtrip_witness :
    deserialize_model_encoding (serialize_model_encoding [8, 16]) =
      some [8, 16] ∧
    ∃ l, deserialize_model_encoding [56, 45, 49, 54] = some l ∧
      serialize_model_encoding l = [56, 45, 49, 54] :=
  ⟨encoding_roundtrip.1 [8, 16] (by decide),
   encoding_roundtrip.2 [56, 45, 49, 54] (by decide)⟩

theorem pythonRange_pairwise (start stop step : Int) (h : 0 < step) :
    (pythonRange start stop step).Pairwise (· < ·) := by
  unfold pythonRange
  refine List.Pairwise.map _ ?_ (List.pairwise_lt_range _)
  intro a b hab
  have : (a : Int) < (b : Int) := by exact_mod_cast hab
  have := mul_lt_mul_of_pos_left this h
  omega

theorem pythonRange_mem (start stop step : Int) (h : 0 < step) (x : Int)
    (hx : x ∈ pythonRange start stop step) : start ≤ x ∧ x < stop := by
  unfold pythonRange at hx
  rw [List.mem_map] at hx
  obtain ⟨i, hi, rfl⟩ := hx
  rw [List.mem_range] at hi
  have hstep : (0 : Int) ≤ step := le_of_lt h
  have hi2 : (i : Int) < Int.ediv (stop - start + step - 1) step := by
    rw [← Int.lt_toNat]
    exact hi
  constructor
  · have : (0 : Int) ≤ step * i := mul_nonneg hstep (by positivity)
    omega
  · have hmul : Int.ediv (stop - start + step - 1) step * step ≤
        stop - start + step - 1 := Int.ediv_mul_le _ (by omega)
    have hile : (i : Int) ≤ Int.ediv (stop - start + step - 1) step - 1 := by
      omega
    have : step * i ≤ step * (Int.ediv (stop - start + step - 1) step - 1) :=
      mul_le_mul_of_nonneg_left hile hstep
    have hexp : step * (Int.ediv (stop - start + step - 1) step - 1) =
        Int.ediv (stop - start + step - 1) step * step - step := by ring
    omega

theorem pythonRange_head (start stop step : Int) (h : 0 < step)
    (hlt : start < stop) : (pythonRange start stop step)[0]? = some start := by
  unfold pythonRange
  have h1 : (1 : Int) ≤ Int.ediv (stop - start + step - 1) step := by
    show (1 : Int) ≤ (stop - start + step - 1) / step
    rw [Int.le_ediv_iff_mul_le h]
    omega
  have hpos : 0 < (Int.ediv (stop - start + step - 1) step).toNat := by
    omega
  rw [List.getElem?_map, List.getElem?_range hpos]
  simp

theorem getElem_not_mem_eraseIdx (l : List Int) :
    ∀ (i : Nat) (h : i < l.length), l.Nodup → l[i] ∉ l.eraseIdx i := by
  induction l with
  | nil =>
    intro i h
    simp at h
  | cons a t ih =>
    intro i h hn
    rw [List.nodup_cons] at hn
    cases i with
    | zero =>
      simpa using hn.1
    | succ i =>
      have hti : i < t.length := by simpa using h
      simp only [List.getElem_cons_succ, List.eraseIdx_cons_succ,
        List.mem_cons]
      rintro (he | hmem)
      · exact hn.1 (he ▸ List.getElem_mem hti)
      · exact ih i hti hn.2 hmem

theorem pySample_nodup_mem :
    ∀ (k : Nat) (pop : List Int) (pick : Nat → Nat), pop.Nodup →
    (pySample pop k pick).Nodup ∧ ∀ x ∈ pySample pop k pick, x ∈ pop := by
  intro k
  induction k with
  | zero =>
    intro pop pick _
    simp [pySample]
  | succ k ih =>
    intro pop pick hn
    by_cases hl : pop.length = 0
    · simp [pySample, hl]
    · have hlt : pick k % pop.length < pop.length :=
        Nat.mod_lt _ (Nat.pos_of_ne_zero hl)
      have hsub : List.Sublist (pop.eraseIdx (pick k % pop.length)) pop :=
        List.eraseIdx_sublist pop _
      have herase : (pop.eraseIdx (pick k % pop.length)).Nodup :=
        List.Nodup.sublist hsub hn
      obtain ⟨ihn, ihm⟩ := ih (pop.eraseIdx (pick k % pop.length)) pick herase
      have hget : pop.getD (pick k % pop.length) 0 = pop[pick k % pop.length] :=
        List.getD_eq_getElem pop 0 hlt
      constructor
      · simp only [pySample, if_neg hl, List.nodup_cons]
        constructor
        · rw [hget]
          intro hmem
          exact getElem_not_mem_eraseIdx pop _ hlt hn (ihm _ hmem)
        · exact ihn
      · intro x hx
        simp only [pySample, if_neg hl, List.mem_cons] at hx
        rcases hx with rfl | hx
        · rw [hget]
          exact List.getElem_mem hlt
        · exact hsub.subset (ihm x hx)

theorem pySample_length :
    ∀ (k : Nat) (pop : List Int) (pick : Nat → Nat), k ≤ pop.length →
    (pySample pop k pick).length = k := by
  intro k
  induction k with
  | zero =>
    intro pop pick _
    simp [pySample]
  | succ k ih =>
    intro pop pick hk
    have hl : pop.length ≠ 0 := by omega
    have hlt : pick k % pop.length < pop.length :=
      Nat.mod_lt _ (Nat.pos_of_ne_zero hl)
    simp only [pySample, if_neg hl, List.length_cons]
    rw [ih (pop.eraseIdx (pick k % pop.length)) pick
      (by rw [List.length_eraseIdx]; simp [hlt]; omega)]

theorem sweepStep_pos_le (min_time fully : Int)
    (h : 0 < sweepStep min_time fully) : min_time + 30 ≤ fully := by
  unfold sweepStep at h
  by_contra hc
  push_neg at hc
  rcases le_or_lt 0 (fully - min_time) with hd | hd
  · have : Int.tdiv (fully - min_time) 30 = 0 :=
      Int.tdiv_eq_zero_of_lt hd (by omega)
    omega
  · have h2 : Int.tdiv (fully - min_time) 30 ≤ 0 := by
      have hneg : 0 ≤ -(fully - min_time) := by omega
      have : Int.tdiv (-(fully - min_time)) 30 = -Int.tdiv (fully - min_time) 30 :=
        Int.neg_tdiv _ _
      have hnn : 0 ≤ Int.tdiv (-(fully - min_time)) 30 :=
        Int.tdiv_nonneg hneg (by omega)
      omega
    omega

theorem pythonRange_length_base : (pythonRange 1 15624 1).length = 15623 := by
  unfold pythonRange
  rw [List.length_map, List.length_range]
  rfl

/-- Claim C8.  The benchmark harness draws an independent candidate pool
per repetition — each pool is a list of `total_models`
pairwise-distinct identifiers from `range(1, 15624)` — and, whenever the
computed sweep step is positive (the operating regime of the benchmark),
each repetition sweeps strictly increasing budget values starting at the
minimum feasible budget and staying below the full-training budget. -/
theorem harness_pools_and_budget_sweep (pick : Nat → Nat → Nat)
    (min_time fully : Int) (hstep : 0 < sweepStep min_time fully) :
    (∀ pool ∈ all_models pick, pool.Nodup ∧ pool.length = total_models ∧
      ∀ x ∈ pool, 1 ≤ x ∧ x < 15624) ∧
    (budget_sweep min_time fully).Pairwise (· < ·) ∧
    (budget_sweep min_time fully)[0]? = some min_time ∧
    (∀ b ∈ budget_sweep min_time fully, min_time ≤ b ∧ b < fully) := by
  have hpop : (pythonRange 1 15624 1).Nodup :=
    (pythonRange_pairwise 1 15624 1 (by omega)).imp ne_of_lt
  refine ⟨?_, ?_, ?_, ?_⟩
  · intro pool hpool
    unfold all_models at hpool
    rw [List.mem_map] at hpool
    obtain ⟨r, _, rfl⟩ := hpool
    obtain ⟨hn, hm⟩ := pySample_nodup_mem total_models
      (pythonRange 1 15624 1) (pick r) hpop
    refine ⟨hn, ?_, ?_⟩
    · apply pySample_length
      rw [pythonRange_length_base]
      unfold total_models
      omega
    · intro x hx
      exact pythonRange_mem 1 15624 1 (by omega) x (hm x hx)
  · exact pythonRange_pairwise _ _ _ hstep
  · exact pythonRange_head _ _ _ hstep
      (by have := sweepStep_pos_le min_time fully hstep; omega)
  · intro b hb
    exact pythonRange_mem _ _ _ hstep b hb

/-- Concrete instance of C8: with a minimum budget of 0 and a
full-training budget of 60 the sweep step is 2, positive, and the
conclusions hold for any pick tape. -/
theorem harness_pools_and_budget_sweep_witness :
    0 < sweepStep 0 60 ∧
    ((∀ pool ∈ all_models (fun _ _ => 0), pool.Nodup ∧
        pool.length = total_models ∧ ∀ x ∈ pool, 1 ≤ x ∧ x < 15624) ∧
      (budget_sweep 0 60).Pairwise (· < ·) ∧
      (budget_sweep 0 60)[0]? = some 0 ∧
      (∀ b ∈ budget_sweep 0 60, 0 ≤ b ∧ b < 60)) :=
  ⟨by decide, harness_pools_and_budget_sweep (fun _ _ => 0) 0 60 (by decide)⟩

/-- Concrete instance of C3: an identifier already present in the initial
cache (here 7) is never re-evaluated during the run. -/
theorem filtering_scores_each_candidate_once_witness :
    7 ∉ (runScoring (fun _ _ => (0 : Int)) 1 [(5, ()), (5, ()), (6, ())]
      [(7, (0 : Int))]).trace.map Prod.fst :=
  (filtering_scores_each_candidate_once (fun _ _ => (0 : Int)) 1
    [(5, ()), (5, ()), (6, ())] [(7, (0 : Int))]).2.1 7 (by decide)
